import Mathlib

/-
Verification development for `databricks/labs/blueprint/wheels.py` (the
`Wheels` wheel builder).  The Python source is shallowly embedded below:

* external state (the project root's `.git/config` existence, the output of
  `git describe --tags`, the wall clock consumed by `strftime`, and the
  behaviour of `pip wheel`) is captured by an explicit `World`;
* a `Wheels` object is a record of its constructor arguments plus its
  dynamic attributes.  Python name mangling is modelled faithfully: the
  check `hasattr(self, "__version")` consults the attribute literally named
  `__version` (field `attr_dunder_version`), while `self.__version = ...`
  writes to the mangled attribute `_Wheels__version` (field
  `attr_mangled_version`);
* fallible operations return `Except String`, the error string being the
  message of the raised exception;
* time-dependent calls are indexed by a tick `t : Nat` that advances on each
  `version()` invocation, so that consecutive invocations may observe
  different `git describe` output and clock readings.
-/

set_option maxHeartbeats 1000000

namespace Blueprint

/-- Character class of a semver pre-release/build identifier: `[0-9A-Za-z-]`. -/
def identChar (c : Char) : Bool := c.isAlphanum || c == '-'

/-- Split a character list at the first character satisfying `p`; the second
component is `none` when no such character occurs (models the behaviour of
the anchored semver regex groups around `-` and `+`). -/
def splitFirst (p : Char → Bool) : List Char → List Char × Option (List Char)
  | [] => ([], none)
  | c :: rest =>
    if p c then ([], some rest)
    else
      let r := splitFirst p rest
      (c :: r.1, r.2)

/-- Split a character list on every character satisfying `p` (like
`str.split`, the result is never empty and keeps empty chunks). -/
def splitP (p : Char → Bool) : List Char → List (List Char)
  | [] => [[]]
  | c :: rest =>
    if p c then [] :: splitP p rest
    else
      match splitP p rest with
      | [] => [[c]]
      | s :: ss => (c :: s) :: ss

/-- Numeric semver component: digits only, no leading zero (`0|[1-9]\d*`). -/
def numericOK : List Char → Bool
  | [] => false
  | [c] => c.isDigit
  | c :: rest => c.isDigit && !(c == '0') && rest.all Char.isDigit

/-- A valid semver pre-release identifier: nonempty, `[0-9A-Za-z-]`, and if
purely numeric then without leading zeros. -/
def identOK (l : List Char) : Bool :=
  !l.isEmpty && l.all identChar && (!(l.all Char.isDigit) || numericOK l)

/-- A valid semver build-metadata identifier: nonempty, `[0-9A-Za-z-]`. -/
def buildIdentOK (l : List Char) : Bool := !l.isEmpty && l.all identChar

/-- The dot separator used between semver identifiers. -/
def dotChar (c : Char) : Bool := c == '.'

/-- Validity of a semver pre-release field (dot-separated identifiers). -/
def preOK (l : List Char) : Bool := (splitP dotChar l).all identOK

/-- Validity of a semver build-metadata field (dot-separated identifiers). -/
def buildOK (l : List Char) : Bool := (splitP dotChar l).all buildIdentOK

/-- Decimal digits to a natural number (the regex groups are converted with
`int(...)`). -/
def toNatDigits (l : List Char) : Nat := l.foldl (fun a c => a * 10 + (c.toNat - 48)) 0

/-- In Python, `re.match` lets `$` also match just before one final newline;
`git describe` output ends in `"\n"`, so the anchored semver pattern accepts
exactly one trailing newline.  This models that acceptance. -/
def dropFinalNewline (l : List Char) : List Char :=
  match l.getLast? with
  | some c => if c == '\n' then l.dropLast else l
  | none => l

/-- The optional leading `v` accepted by the tag pattern (`v?`). -/
def stripV (l : List Char) : List Char :=
  match l with
  | [] => []
  | c :: rest => if c == 'v' then rest else c :: rest

/-- Modelled from the spec: the external SDK collaborator's `SemVer` value
(`databricks.sdk.mixins.compute.SemVer` is not part of this repository).
Per the spec, tag output is "parsed as `major.minor.patch[-pre-release]`"
following semantic-versioning rules. -/
structure SemVer where
  major : Nat
  minor : Nat
  patch : Nat
  pre_release : Option String
  build : Option String
deriving DecidableEq, Repr

/-- Validity of an optional pre-release field. -/
def optPreOK : Option (List Char) → Bool
  | none => true
  | some p => preOK p

/-- Validity of an optional build-metadata field. -/
def optBuildOK : Option (List Char) → Bool
  | none => true
  | some bd => buildOK bd

/-- The core of the semver match, on the character list after newline/`v`
normalisation: split off build metadata at the first `+`, the pre-release
at the first `-` of the remainder, and require a dotted numeric
`major.minor.patch` core with valid optional fields. -/
def semverParseChars (l : List Char) : Option SemVer :=
  match splitP dotChar (splitFirst (fun c => c == '-')
      (splitFirst (fun c => c == '+') l).1).1 with
  | [a, b, c] =>
    if numericOK a && numericOK b && numericOK c
        && optPreOK (splitFirst (fun c => c == '-') (splitFirst (fun c => c == '+') l).1).2
        && optBuildOK (splitFirst (fun c => c == '+') l).2 then
      some ⟨toNatDigits a, toNatDigits b, toNatDigits c,
        ((splitFirst (fun c => c == '-') (splitFirst (fun c => c == '+') l).1).2).map
          (fun p => String.mk p),
        ((splitFirst (fun c => c == '+') l).2).map (fun bd => String.mk bd)⟩
    else none
  | _ => none

/-- Modelled from the spec: the external `SemVer.parse`, which matches the
official anchored semver regular expression (with optional leading `v`)
`major.minor.patch[-pre-release][+build]` and fails (raises) on any
non-matching string.  `none` models the raised parse error. -/
def SemVer.parse (s : String) : Option SemVer :=
  semverParseChars (stripV (dropFinalNewline s.data))

/-- Fuel-driven accumulator loop producing the decimal digits of `n` in
front of `acc`; the fuel is only there to make the recursion structural. -/
def natCharsGo : Nat → Nat → List Char → List Char
  | 0, _, acc => acc
  | fuel + 1, n, acc =>
    if n < 10 then Char.ofNat (48 + n) :: acc
    else natCharsGo fuel (n / 10) (Char.ofNat (48 + n % 10) :: acc)

/-- Decimal digit characters of a natural number, most significant first
(models Python's rendering of an `int` in an f-string). -/
def natChars (n : Nat) : List Char := natCharsGo (n + 1) n []

/-- Python truthiness of an `Optional[str]`: `None` and `""` are falsy. -/
def pyTruthy : Option String → Bool
  | none => false
  | some s => !s.isEmpty

/-- Python f-string rendering of an `Optional[str]`: `None` renders as the
four characters `None`. -/
def pyStrOpt : Option String → String
  | none => "None"
  | some s => s

/-- Model of `dv.pre_release.split("-")[0]`: the prefix before the first
hyphen. -/
def takeNoDash (s : String) : List Char := s.data.takeWhile (fun c => !(c == '-'))

/-- The `new_commits` value of `Wheels.version`:
`dv.pre_release.split("-")[0] if dv.pre_release else None`. -/
def ncOf (dv : SemVer) : Option String :=
  if pyTruthy dv.pre_release then some (String.mk (takeNoDash (dv.pre_release.getD "")))
  else none

/-- Characters of the composed string
`f"{dv.major}.{dv.minor}.{bump_patch}+{new_commits}{datestamp}"` with
`bump_patch = dv.patch + 1`. -/
def composedChars (dv : SemVer) (nc : Option String) (ds : String) : List Char :=
  natChars dv.major ++ '.' :: natChars dv.minor ++ '.' :: natChars (dv.patch + 1)
    ++ '+' :: (pyStrOpt nc).data ++ ds.data

/-- The composed `semver_and_pep0440` string for a parsed tag `dv` and
datestamp `ds`. -/
def composedOf (dv : SemVer) (ds : String) : String :=
  String.mk (composedChars dv (ncOf dv) ds)

/-- External state observed by the wheel builder.  `git_describe t` is the
stdout of `git describe --tags` at tick `t` (`none` models a
`CalledProcessError`), `git_error t` the corresponding exception text,
`clock t` the output of `datetime.datetime.now().strftime("%Y%m%d%H%M%S")`,
and `pip_files` the `*.whl` files a successful `pip wheel` run writes into
the temp directory (`none` models a non-zero exit). -/
structure World where
  git_config_exists : Bool
  git_describe : Nat → Option String
  git_error : Nat → String
  clock : Nat → String
  pip_files : Option (List String)

/-- The `Wheels` object: constructor arguments plus dynamic attributes.
`attr_dunder_version` is the attribute literally named `__version` (the one
`hasattr(self, "__version")` checks; never assigned by the class itself),
while `attr_mangled_version` is `_Wheels__version` (the name-mangled target
of the assignment `self.__version = ...`). -/
structure Wheels where
  released_version : String
  github_org : String
  product : String
  install_folder : String
  attr_dunder_version : Option String
  attr_mangled_version : Option String
deriving DecidableEq

/-- The issue-tracker URL embedded in the fatal error message. -/
def issues_url (w : Wheels) : String :=
  "https://github.com/" ++ w.github_org ++ "/" ++ w.product ++ "/issues/new"

/-- The releases-page URL embedded in the fatal error message. -/
def releases_url (w : Wheels) : String :=
  "https://github.com/" ++ w.github_org ++ "/" ++ w.product ++ "/releases"

/-- The message of the `OSError` raised when unreleased-version resolution
fails (built exactly as the f-string in `Wheels.version`). -/
def errorMessage (w : Wheels) (err : String) : String :=
  "Cannot determine unreleased version. Please report this error message that you see on "
    ++ issues_url w
    ++ ". Meanwhile, download, unpack, and install the latest released version from "
    ++ releases_url w
    ++ ". Original error is: " ++ err

/-- Modelled from the spec: the text of the error raised by the external
`SemVer.parse` on a non-matching string (exact wording lives outside the
repository; only its presence in the remediation message matters). -/
def parseErrorText (s : String) : String := "Not a SemVer: " ++ s

/-- Model of `Wheels.version`.  Returns the version string, the updated
object, and the next tick; `.error` carries the raised exception's message.
Mirrors the source line by line: the `hasattr(self, "__version")` check (a
name that the class never assigns, since `self.__version = ...` mangles to
`_Wheels__version`), the `.git/config` early return of the released
version, and the `git describe` / parse / compose / re-parse pipeline whose
failures are wrapped in `errorMessage`. -/
def Wheels.version (w : Wheels) (world : World) (t : Nat) :
    Except String (String × Wheels × Nat) :=
  if w.attr_dunder_version.isSome then
    match w.attr_mangled_version with
    | some v => .ok (v, w, t + 1)
    | none => .error "AttributeError: _Wheels__version"
  else if world.git_config_exists then
    match world.git_describe t with
    | none => .error (errorMessage w (world.git_error t))
    | some out =>
      match SemVer.parse out with
      | none => .error (errorMessage w (parseErrorText out))
      | some dv =>
        match SemVer.parse (composedOf dv (world.clock t)) with
        | none => .error (errorMessage w (parseErrorText (composedOf dv (world.clock t))))
        | some _ =>
          .ok (composedOf dv (world.clock t),
            { w with attr_mangled_version := some (composedOf dv (world.clock t)) }, t + 1)
  else
    .ok (w.released_version, w, t + 1)

/-- Association-list lookup over path/content pairs (first binding wins,
matching which file a path denotes). -/
def lookupA : List (String × String) → String → Option String
  | [], _ => none
  | (k, v) :: rest, key => if k = key then some v else lookupA rest key

/-- Association-list overwrite: replaces the binding of `key` when present
(models opening an existing file with mode `"w"`), appends otherwise. -/
def setA : List (String × String) → String → String → List (String × String)
  | [], key, v => [(key, v)]
  | (k, v0) :: rest, key, v =>
    if k = key then (key, v) :: rest else (k, v0) :: setA rest key v

/-- The on-disk state visible to the builder: the project root's tree
(paths relative to the root) and the temporary directory created by the
lifecycle (paths relative to the temp directory, plus an existence flag for
the directory itself). -/
structure FS where
  project : List (String × String)
  tmp_exists : Bool
  tmp : List (String × String)
deriving DecidableEq

/-- Observable external calls made by the builder and the upload gateway.
`pip_wheel_run quiet from_copy` records one `pip wheel` subprocess
invocation: `quiet` is true when stdout/stderr are redirected to `DEVNULL`
(i.e. `verbose` was false), `from_copy` whether the build root was the
patched working copy. -/
inductive Event where
  | pip_wheel_run (quiet : Bool) (from_copy : Bool)
  | dbfs_mkdirs (path : String)
  | dbfs_upload (path : String) (overwrite : Bool)
  | ws_mkdirs (path : String)
  | ws_upload (path : String) (overwrite : Bool)
deriving DecidableEq

/-- `src/databricks/labs/{product}/__about__.py`, the version-marker file
path relative to a project root. -/
def about_path (product : String) : String :=
  "src/databricks/labs/" ++ product ++ "/__about__.py"

/-- The marker file's path inside the temp directory's working copy. -/
def markerPath (product : String) : String := "working-copy/" ++ about_path product

/-- The exact content written over the version marker:
`__version__ = "<version>"`. -/
def markerContent (v : String) : String := "__version__ = \"" ++ v ++ "\""

/-- `shutil.copytree(project_root, tmp_dir / "working-copy")`: every project
file reappears under the `working-copy/` prefix of the temp directory. -/
def copyEntries (project : List (String × String)) : List (String × String) :=
  project.map (fun e => ("working-copy/" ++ e.1, e.2))

/-- Reversed `".whl"`, for suffix testing. -/
def whlRev : List Char := ['l', 'h', 'w', '.']

/-- `Path(tmp_dir).glob("*.whl")`: the direct children of the temp directory
(keys without a path separator) whose name ends in `.whl`, in enumeration
order (the model's stand-in for the platform-defined directory order). -/
def globWhl (tmp : List (String × String)) : List String :=
  (tmp.map (fun e => e.1)).filter
    (fun p => !(p.data.contains '/') && List.isPrefixOf whlRev p.data.reverse)

/-- `Path.name`: the final path component. -/
def basename (s : String) : String :=
  String.mk ((s.data.reverse.takeWhile (fun c => !(c == '/'))).reverse)

/-- `os.path.dirname`: everything before the final separator, with trailing
separators stripped unless the head is all separators. -/
def dirname (s : String) : String :=
  match List.findIdx? (fun c => c == '/') s.data.reverse with
  | none => ""
  | some k =>
    let head := s.data.take (s.data.length - k)
    if head.all (fun c => c == '/') then String.mk head
    else String.mk ((head.reverse.dropWhile (fun c => c == '/')).reverse)

deriving instance DecidableEq for Except

/-- Result of `Wheels._build_wheel`: the raised-or-returned value (`.ok`
carries the artifact's filename), together with the final filesystem, the
emitted external events, and the updated object and tick.  The filesystem
is returned on every path so that frame properties can be stated for
failing runs too. -/
structure BuildOut where
  res : Except String String
  fs : FS
  events : List Event
  w : Wheels
  t : Nat
deriving DecidableEq

/-- The tail of `_build_wheel` from the `pip wheel` subprocess call onwards:
run the tool (writing its `*.whl` outputs into the temp directory on
success, failing with `CalledProcessError` on non-zero exit), then take the
first `*.whl` glob match (raising `StopIteration` when there is none). -/
def runPip (w : Wheels) (world : World) (t : Nat) (fs : FS) (quiet from_copy : Bool) :
    BuildOut :=
  match world.pip_files with
  | none =>
    ⟨.error "CalledProcessError: pip wheel returned non-zero exit status",
      fs, [Event.pip_wheel_run quiet from_copy], w, t⟩
  | some names =>
    let tmp2 := fs.tmp ++ names.map (fun n => (n, "wheel-binary"))
    let fs2 := { fs with tmp := tmp2 }
    match globWhl tmp2 with
    | [] => ⟨.error "StopIteration", fs2, [Event.pip_wheel_run quiet from_copy], w, t⟩
    | f :: _ => ⟨.ok f, fs2, [Event.pip_wheel_run quiet from_copy], w, t⟩

/-- Model of `Wheels._build_wheel(tmp_dir, verbose=...)`.  Computes
`is_non_released_version = "+" in self.version()` (first `version()` call),
and when the project root is under git and the version is unreleased,
copies the tree to `working-copy/` and overwrites the marker file with
`__version__ = "<self.version()>"` (second `version()` call; note the file
is opened with mode `"w"`, hence truncated, before the f-string evaluates
`version()`).  Then hands over to the `pip wheel` stage. -/
def Wheels.build_wheel (w : Wheels) (world : World) (t : Nat) (fs : FS) (verbose : Bool) :
    BuildOut :=
  let quiet := !verbose
  match Wheels.version w world t with
  | .error e => ⟨.error e, fs, [], w, t⟩
  | .ok (v1, w1, t1) =>
    match world.git_config_exists && v1.data.contains '+' with
    | true =>
      match Wheels.version w1 world t1 with
      | .error e =>
        ⟨.error e,
          { fs with tmp := setA (fs.tmp ++ copyEntries fs.project) (markerPath w.product) "" },
          [], w1, t1⟩
      | .ok (v2, w2, t2) =>
        runPip w2 world t2
          { fs with
            tmp := setA (fs.tmp ++ copyEntries fs.project) (markerPath w.product)
              (markerContent v2) }
          quiet true
    | false =>
      runPip w1 world t1 fs quiet false

/-- The state exposed inside the lifecycle scope: the attributes `__enter__`
sets (`_local_wheel`, `_remote_wheel`, `_remote_dir_name`) plus the updated
object. -/
structure Entered where
  w : Wheels
  local_wheel : String
  remote_wheel : String
  remote_dir_name : String
deriving DecidableEq

/-- Result of `Wheels.__enter__`. -/
structure EnterOut where
  res : Except String Entered
  fs : FS
  events : List Event
  t : Nat
deriving DecidableEq

/-- Model of `Wheels.__enter__`: create a fresh temporary directory, build
the wheel into it without verbose output, and derive
`<install_folder>/wheels/<wheel name>` and its parent directory. -/
def Wheels.enter (w : Wheels) (world : World) (t : Nat) (fs : FS) : EnterOut :=
  let fs1 : FS := { fs with tmp_exists := true, tmp := [] }
  let b := Wheels.build_wheel w world t fs1 false
  match b.res with
  | .error e => ⟨.error e, b.fs, b.events, b.t⟩
  | .ok name =>
    let remote := w.install_folder ++ "/wheels/" ++ basename name
    ⟨.ok ⟨b.w, name, remote, dirname remote⟩, b.fs, b.events, b.t⟩

/-- Model of `Wheels.__exit__`: `self._tmp_dir.cleanup()` recursively
deletes the temporary directory, ignoring the exception information. -/
def Wheels.exitScope (fs : FS) : FS := { fs with tmp_exists := false, tmp := [] }

/-- A scoped use of the lifecycle (`with Wheels(...) as wheels: body`),
returning the body's outcome and the final filesystem.  `__exit__` runs
whenever `__enter__` succeeded, also when the body raises (`body` returning
`.error` models a raising body). -/
def withWheels (w : Wheels) (world : World) (t : Nat) (fs : FS)
    (body : Entered → Except String Unit) : Except String Unit × FS :=
  let e := Wheels.enter w world t fs
  match e.res with
  | .error err => (.error err, e.fs)
  | .ok entered =>
    let r := body entered
    (r, Wheels.exitScope e.fs)

/-- The remote storage state of the two backends (DBFS and workspace):
which directories exist and which files are present. -/
structure Remote where
  dbfs_dirs : List String
  dbfs_files : List String
  ws_dirs : List String
  ws_files : List String
deriving DecidableEq

/-- `mkdirs`: create-if-absent (idempotent). -/
def mkdirsL (dirs : List String) (d : String) : List String :=
  if dirs.contains d then dirs else d :: dirs

/-- `upload(..., overwrite=True)`: the file is present afterwards,
succeeding whether or not it already existed. -/
def uploadL (files : List String) (p : String) : List String :=
  if files.contains p then files else p :: files

/-- Result of an upload operation. -/
structure UploadOut where
  res : Except String String
  remote : Remote
  events : List Event
deriving DecidableEq

/-- Model of `Wheels.upload_to_dbfs`: open the local wheel for reading
(raising if the temp directory or the artifact is gone), create the remote
parent directory, upload with overwrite, and return the remote path. -/
def Wheels.upload_to_dbfs (e : Entered) (fs : FS) (r : Remote) : UploadOut :=
  match fs.tmp_exists && (lookupA fs.tmp e.local_wheel).isSome with
  | true =>
    ⟨.ok e.remote_wheel,
      { { r with dbfs_dirs := mkdirsL r.dbfs_dirs e.remote_dir_name } with
        dbfs_files := uploadL r.dbfs_files e.remote_wheel },
      [Event.dbfs_mkdirs e.remote_dir_name, Event.dbfs_upload e.remote_wheel true]⟩
  | false => ⟨.error "FileNotFoundError", r, []⟩

/-- Model of `Wheels.upload_to_wsfs`: as `upload_to_dbfs`, against the
workspace backend (the `ImportFormat.AUTO` argument does not affect the
modelled state). -/
def Wheels.upload_to_wsfs (e : Entered) (fs : FS) (r : Remote) : UploadOut :=
  match fs.tmp_exists && (lookupA fs.tmp e.local_wheel).isSome with
  | true =>
    ⟨.ok e.remote_wheel,
      { { r with ws_dirs := mkdirsL r.ws_dirs e.remote_dir_name } with
        ws_files := uploadL r.ws_files e.remote_wheel },
      [Event.ws_mkdirs e.remote_dir_name, Event.ws_upload e.remote_wheel true]⟩
  | false => ⟨.error "FileNotFoundError", r, []⟩

/-- The temp-directory entries a successful `pip wheel` run adds. -/
def pipEntries (world : World) : List (String × String) :=
  match world.pip_files with
  | none => []
  | some ns => ns.map (fun n => (n, "wheel-binary"))

/-- Separators of a packaging-ecosystem local version (`.`, `-`, `_`). -/
def sepChar (c : Char) : Bool := c == '.' || c == '-' || c == '_'

/-- A nonempty all-digits segment. -/
def digitsSeg (l : List Char) : Bool := !l.isEmpty && l.all Char.isDigit

/-- A nonempty alphanumeric segment. -/
def alnumSeg (l : List Char) : Bool := !l.isEmpty && l.all Char.isAlphanum

/-- Modelled from the spec: validity under the "dotted packaging-version
scheme" (PEP 440 restricted to the shapes at play): a dotted sequence of
numeric release segments, optionally followed by `+` and a local version
made of nonempty alphanumeric segments joined by `.`, `-` or `_`. -/
def pep440OK (s : String) : Bool :=
  (splitP dotChar (splitFirst (fun c => c == '+') s.data).1).all digitsSeg &&
    (match (splitFirst (fun c => c == '+') s.data).2 with
     | none => true
     | some loc => !loc.isEmpty && (splitP sepChar loc).all alnumSeg)

/-- The pattern claimed for an exact-tag build: the literal `1.2.4+`
followed by exactly a 14-digit timestamp and nothing else. -/
def matchesExactTagPattern (s : String) : Bool :=
  List.isPrefixOf ('1' :: '.' :: '2' :: '.' :: '4' :: '+' :: []) s.data
    && (s.data.drop 6).length == 14 && (s.data.drop 6).all Char.isDigit

/-- A fresh `Wheels` instance as the constructor builds it (both dynamic
version attributes absent), used by concrete witnesses. -/
def witWheels : Wheels :=
  ⟨"0.1.0", "databrickslabs", "blueprint", "/Users/me/.blueprint", none, none⟩

/-- A world with a git checkout at exact tag `v1.2.3` whose clock advances
by one second between consecutive `version()` calls. -/
def witWorldTicking : World :=
  ⟨true, fun _ => some "v1.2.3\n", fun _ => "git failed",
    fun t => if t = 0 then "20240101000000" else "20240101000001",
    some ["databricks_labs_blueprint-0.1.0-py3-none-any.whl"]⟩

/-- A world with a git checkout at exact tag `v1.2.3`, a constant clock and
a well-behaved `pip wheel`. -/
def witWorldStable : World :=
  ⟨true, fun _ => some "v1.2.3\n", fun _ => "git failed",
    fun _ => "20240101000000",
    some ["databricks_labs_blueprint-0.1.0-py3-none-any.whl"]⟩

/-- A world with no source-control metadata at the project root. -/
def witWorldNoGit : World :=
  ⟨false, fun _ => none, fun _ => "git failed", fun _ => "20240101000000",
    some ["databricks_labs_blueprint-0.1.0-py3-none-any.whl"]⟩

/-- A world where `git describe --tags` itself fails. -/
def witWorldGitFails : World :=
  ⟨true, fun _ => none,
    fun _ => "fatal: no names found, cannot describe anything.",
    fun _ => "20240101000000", none⟩

/-- A small project tree used by concrete witnesses. -/
def witProject : List (String × String) :=
  [("README.md", "readme"),
    ("src/databricks/labs/blueprint/__about__.py", "__version__ = \"0.1.0\"")]

/-- The `Entered` state produced by `__enter__` in the no-git witness
world. -/
def witEntered : Entered :=
  ⟨witWheels, "databricks_labs_blueprint-0.1.0-py3-none-any.whl",
    "/Users/me/.blueprint/wheels/databricks_labs_blueprint-0.1.0-py3-none-any.whl",
    "/Users/me/.blueprint/wheels"⟩

/-- First `version()` call on a fresh instance in the ticking world. -/
def firstVersionCall : Except String (String × Wheels × Nat) :=
  Wheels.version witWheels witWorldTicking 0

/-- Second `version()` call on the same instance (threading the object state
and tick returned by the first call). -/
def secondVersionCall : Except String (String × Wheels × Nat) :=
  match firstVersionCall with
  | .ok r => Wheels.version r.2.1 witWorldTicking r.2.2
  | .error e => .error e

/-- Substring containment on strings, stated over the character lists. -/
def strContains (needle hay : String) : Prop :=
  ∃ x y, hay.data = x ++ needle.data ++ y

theorem natCharsGo_fuel (fuel₁ : Nat) :
    ∀ fuel₂ n acc, n < fuel₁ → n < fuel₂ →
      natCharsGo fuel₁ n acc = natCharsGo fuel₂ n acc := by
  induction fuel₁ with
  | zero => intro fuel₂ n acc h1 _; omega
  | succ f ih =>
    intro fuel₂ n acc h1 h2
    cases fuel₂ with
    | zero => omega
    | succ f2 =>
      simp only [natCharsGo]
      by_cases h10 : n < 10
      · simp [h10]
      · simp only [h10, if_false]
        exact ih f2 (n / 10) _ (by omega) (by omega)

theorem natCharsGo_acc (fuel : Nat) :
    ∀ n acc, n < fuel → natCharsGo fuel n acc = natCharsGo fuel n [] ++ acc := by
  induction fuel with
  | zero => intro n acc h; omega
  | succ f ih =>
    intro n acc h
    simp only [natCharsGo]
    by_cases h10 : n < 10
    · simp [h10]
    · simp only [h10, if_false]
      have hlt : n / 10 < f := by
        have hd : n / 10 < n := Nat.div_lt_self (by omega) (by omega)
        omega
      rw [ih (n / 10) (Char.ofNat (48 + n % 10) :: acc) hlt,
        ih (n / 10) [Char.ofNat (48 + n % 10)] hlt]
      simp

/-- The natural recurrence for `natChars`. -/
theorem natChars_rec (n : Nat) :
    natChars n = if n < 10 then [Char.ofNat (48 + n)]
      else natChars (n / 10) ++ [Char.ofNat (48 + n % 10)] := by
  by_cases h10 : n < 10
  · simp [natChars, natCharsGo, h10]
  · have hlt : n / 10 < n := Nat.div_lt_self (by omega) (by omega)
    simp only [natChars, natCharsGo, h10, if_false]
    rw [natCharsGo_fuel n (n / 10 + 1) (n / 10) _ (by omega) (by omega)]
    rw [natCharsGo_acc (n / 10 + 1) (n / 10) _ (by omega)]
    simp only [natChars, natCharsGo]

theorem char_digit_of_lt_ten (k : Nat) (h : k < 10) :
    (Char.ofNat (48 + k)).isDigit = true := by
  interval_cases k <;> decide

/-- Every character `natChars` produces is a decimal digit. -/
theorem natChars_digits (n : Nat) : (natChars n).all Char.isDigit = true := by
  induction n using Nat.strong_induction_on with
  | _ n ih =>
    rw [natChars_rec]
    by_cases h10 : n < 10
    · simp [h10, char_digit_of_lt_ten n h10]
    · have hlt : n / 10 < n := Nat.div_lt_self (by omega) (by omega)
      simp only [h10, if_false, List.all_append]
      rw [ih (n / 10) hlt]
      simp [char_digit_of_lt_ten (n % 10) (by omega)]

theorem natChars_ne_nil (n : Nat) : natChars n ≠ [] := by
  rw [natChars_rec]
  by_cases h10 : n < 10 <;> simp [h10]

theorem char_ne_zero_of_lt_ten (k : Nat) (h1 : 1 ≤ k) (h2 : k < 10) :
    (Char.ofNat (48 + k) == '0') = false := by
  interval_cases k <;> decide

/-- The leading digit of a positive number is not `'0'`. -/
theorem natChars_head_ne_zero (n : Nat) (hpos : 1 ≤ n) :
    ∀ c rest, natChars n = c :: rest → (c == '0') = false := by
  induction n using Nat.strong_induction_on with
  | _ n ih =>
    intro c rest hc
    rw [natChars_rec] at hc
    by_cases h10 : n < 10
    · simp only [h10, if_true] at hc
      cases hc
      exact char_ne_zero_of_lt_ten n hpos h10
    · simp only [h10, if_false] at hc
      have hlt : n / 10 < n := Nat.div_lt_self (by omega) (by omega)
      obtain ⟨c0, rest0, hsplit⟩ : ∃ c0 rest0, natChars (n / 10) = c0 :: rest0 := by
        cases hh : natChars (n / 10) with
        | nil => exact absurd hh (natChars_ne_nil (n / 10))
        | cons a b => exact ⟨a, b, rfl⟩
      rw [hsplit] at hc
      simp only [List.cons_append, List.cons.injEq] at hc
      rw [← hc.1]
      exact ih (n / 10) hlt (by omega) c0 rest0 hsplit

/-- `natChars n` is a valid no-leading-zero numeric semver component. -/
theorem natChars_numericOK (n : Nat) : numericOK (natChars n) = true := by
  by_cases h10 : n < 10
  · rw [natChars_rec]
    simp only [h10, if_true]
    simp [numericOK, char_digit_of_lt_ten n h10]
  · obtain ⟨c, rest, hsplit⟩ : ∃ c rest, natChars n = c :: rest := by
      cases hh : natChars n with
      | nil => exact absurd hh (natChars_ne_nil n)
      | cons a b => exact ⟨a, b, rfl⟩
    have hall : (natChars n).all Char.isDigit = true := natChars_digits n
    rw [hsplit] at hall
    simp only [List.all_cons, Bool.and_eq_true] at hall
    have hne : (c == '0') = false := natChars_head_ne_zero n (by omega) c rest hsplit
    have hrest_ne : rest ≠ [] := by
      intro habs
      rw [habs] at hsplit
      rw [natChars_rec] at hsplit
      simp only [h10, if_false] at hsplit
      obtain ⟨c0, rest0, hs0⟩ : ∃ c0 rest0, natChars (n / 10) = c0 :: rest0 := by
        cases hh : natChars (n / 10) with
        | nil => exact absurd hh (natChars_ne_nil (n / 10))
        | cons a b => exact ⟨a, b, rfl⟩
      rw [hs0] at hsplit
      simp at hsplit
    rw [hsplit]
    cases rest with
    | nil => exact absurd rfl hrest_ne
    | cons r rs =>
      simp only [numericOK]
      rw [hall.1, hne, hall.2]
      rfl

theorem digit_beq_false (c x : Char) (h : c.isDigit = true) (hx : x.isDigit = false) :
    (c == x) = false := by
  cases hbe : c == x with
  | false => rfl
  | true =>
    have hcx : c = x := eq_of_beq hbe
    rw [hcx] at h
    simp [h] at hx

theorem digit_isAlphanum (c : Char) (h : c.isDigit = true) : c.isAlphanum = true := by
  simp [Char.isAlphanum, h]

theorem splitFirst_not (p : Char → Bool) (l : List Char)
    (h : l.all (fun c => !(p c)) = true) : splitFirst p l = (l, none) := by
  induction l with
  | nil => rfl
  | cons c rest ih =>
    simp only [List.all_cons, Bool.and_eq_true, Bool.not_eq_true'] at h
    simp [splitFirst, h.1, ih h.2]

theorem splitFirst_app (p : Char → Bool) (a : List Char) (c : Char) (b : List Char)
    (ha : a.all (fun x => !(p x)) = true) (hc : p c = true) :
    splitFirst p (a ++ c :: b) = (a, some b) := by
  induction a with
  | nil => simp [splitFirst, hc]
  | cons d t ih =>
    simp only [List.all_cons, Bool.and_eq_true, Bool.not_eq_true'] at ha
    simp [splitFirst, ha.1, ih ha.2]

theorem splitP_ne_nil (p : Char → Bool) (l : List Char) : splitP p l ≠ [] := by
  cases l with
  | nil => simp [splitP]
  | cons c rest =>
    simp only [splitP]
    by_cases hp : p c
    · simp [hp]
    · simp only [hp, if_false]
      cases splitP p rest <;> simp

theorem splitP_not (p : Char → Bool) (l : List Char)
    (h : l.all (fun c => !(p c)) = true) : splitP p l = [l] := by
  induction l with
  | nil => rfl
  | cons c rest ih =>
    simp only [List.all_cons, Bool.and_eq_true, Bool.not_eq_true'] at h
    simp [splitP, h.1, ih h.2]

theorem splitP_app (p : Char → Bool) (a : List Char) (c : Char) (b : List Char)
    (ha : a.all (fun x => !(p x)) = true) (hc : p c = true) :
    splitP p (a ++ c :: b) = a :: splitP p b := by
  induction a with
  | nil => simp [splitP, hc]
  | cons d t ih =>
    simp only [List.all_cons, Bool.and_eq_true, Bool.not_eq_true'] at ha
    have hrec := ih ha.2
    simp only [List.cons_append, splitP, ha.1, if_false, Bool.false_eq_true, List.append_eq]
    rw [hrec]

theorem splitP_cons_of_head (p : Char → Bool) (c : Char) (l : List Char)
    (hc : p c = false) (s : List Char) (ss : List (List Char))
    (h : splitP p l = s :: ss) : splitP p (c :: l) = (c :: s) :: ss := by
  simp [splitP, hc, h]

theorem mem_splitP_of_mem (p : Char → Bool) (l : List Char) (c : Char) (h : c ∈ l) :
    p c = true ∨ ∃ s, s ∈ splitP p l ∧ c ∈ s := by
  induction l with
  | nil => simp at h
  | cons d t ih =>
    obtain ⟨s0, ss0, hsplit⟩ : ∃ s0 ss0, splitP p t = s0 :: ss0 := by
      cases hh : splitP p t with
      | nil => exact absurd hh (splitP_ne_nil p t)
      | cons a b => exact ⟨a, b, rfl⟩
    rcases List.mem_cons.mp h with hcd | hct
    · subst hcd
      by_cases hp : p c
      · exact Or.inl hp
      · refine Or.inr ⟨c :: s0, ?_, List.mem_cons_self _ _⟩
        rw [splitP_cons_of_head p c t (by simpa using hp) s0 ss0 hsplit]
        exact List.mem_cons_self _ _
    · rcases ih hct with hp | ⟨s, hs, hcs⟩
      · exact Or.inl hp
      · by_cases hpd : p d
        · refine Or.inr ⟨s, ?_, hcs⟩
          simp only [splitP, hpd, if_true]
          exact List.mem_cons_of_mem _ hs
        · rw [hsplit] at hs
          rcases List.mem_cons.mp hs with hss | hss
          · subst hss
            refine Or.inr ⟨d :: s, ?_, List.mem_cons_of_mem _ hcs⟩
            rw [splitP_cons_of_head p d t (by simpa using hpd) s ss0 hsplit]
            exact List.mem_cons_self _ _
          · refine Or.inr ⟨s, ?_, hcs⟩
            rw [splitP_cons_of_head p d t (by simpa using hpd) s0 ss0 hsplit]
            exact List.mem_cons_of_mem _ hss

theorem splitP_congr (p q : Char → Bool) (l : List Char)
    (h : ∀ c ∈ l, p c = q c) : splitP p l = splitP q l := by
  induction l with
  | nil => rfl
  | cons c rest ih =>
    have hc : p c = q c := h c (List.mem_cons_self _ _)
    have hrest : splitP p rest = splitP q rest :=
      ih (fun x hx => h x (List.mem_cons_of_mem _ hx))
    simp only [splitP, hc, hrest]

theorem mem_takeWhile (p : Char → Bool) (l : List Char) (c : Char)
    (h : c ∈ l.takeWhile p) : c ∈ l ∧ p c = true := by
  induction l with
  | nil => simp at h
  | cons d t ih =>
    by_cases hp : p d
    · rw [List.takeWhile_cons_of_pos hp] at h
      rcases List.mem_cons.mp h with hcd | hct
      · subst hcd; exact ⟨List.mem_cons_self _ _, hp⟩
      · have := ih hct
        exact ⟨List.mem_cons_of_mem _ this.1, this.2⟩
    · rw [List.takeWhile_cons_of_neg hp] at h
      simp at h

theorem takeWhile_all (p : Char → Bool) (l : List Char) (h : l.all p = true) :
    l.takeWhile p = l := by
  induction l with
  | nil => rfl
  | cons d t ih =>
    simp only [List.all_cons, Bool.and_eq_true] at h
    rw [List.takeWhile_cons_of_pos h.1, ih h.2]

theorem lookupA_setA_self (l : List (String × String)) (k v : String) :
    lookupA (setA l k v) k = some v := by
  induction l with
  | nil => simp [setA, lookupA]
  | cons e rest ih =>
    by_cases hk : e.1 = k
    · simp [setA, hk, lookupA]
    · simp [setA, hk, lookupA, ih]

theorem lookupA_append_left (l m : List (String × String)) (k v : String)
    (h : lookupA l k = some v) : lookupA (l ++ m) k = some v := by
  induction l with
  | nil => simp [lookupA] at h
  | cons e rest ih =>
    by_cases hk : e.1 = k
    · simp [lookupA, hk] at h
      simp [lookupA, hk, h]
    · simp [lookupA, hk] at h
      simp [lookupA, hk, ih h]

theorem lookupA_isSome_of_mem_keys (l : List (String × String)) (k : String)
    (h : k ∈ l.map (fun e => e.1)) : (lookupA l k).isSome = true := by
  induction l with
  | nil => simp at h
  | cons e rest ih =>
    simp only [List.map_cons, List.mem_cons] at h
    by_cases hk : e.1 = k
    · simp [lookupA, hk]
    · rcases h with h | h
      · exact absurd h.symm hk
      · simp [lookupA, hk, ih h]

theorem mk_data (s : String) : String.mk s.data = s := by
  cases s
  rfl

theorem data_mk (l : List Char) : (String.mk l).data = l := rfl

theorem data_append (a b : String) : (a ++ b).data = a.data ++ b.data := by
  cases a
  cases b
  rfl

theorem basename_no_slash (s : String) (h : s.data.contains '/' = false) :
    basename s = s := by
  have hall : s.data.reverse.all (fun c => !(c == '/')) = true := by
    simp only [List.all_eq_true, List.mem_reverse, Bool.not_eq_true']
    intro c hc
    cases hbe : c == '/' with
    | false => rfl
    | true =>
      have hcs : c = '/' := eq_of_beq hbe
      subst hcs
      rw [List.contains_eq_any_beq] at h
      simp only [List.any_eq_false] at h
      exact absurd (h _ hc) (by simp)
  unfold basename
  rw [takeWhile_all _ _ hall, List.reverse_reverse, mk_data]

/-- `version` never creates the attribute that `hasattr(self, "__version")`
checks: on success the returned object's `__version` attribute equals the
input's (only the mangled `_Wheels__version` is ever assigned). -/
theorem version_preserves_dunder (w : Wheels) (world : World) (t : Nat) (v : String)
    (w' : Wheels) (t' : Nat) (h : Wheels.version w world t = .ok (v, w', t')) :
    w'.attr_dunder_version = w.attr_dunder_version := by
  unfold Wheels.version at h
  split at h
  · split at h
    · simp only [Except.ok.injEq, Prod.mk.injEq] at h
      rw [← h.2.1]
    · simp at h
  · split at h
    · split at h
      · simp at h
      · split at h
        · simp at h
        · split at h
          · simp at h
          · simp only [Except.ok.injEq, Prod.mk.injEq] at h
            rw [← h.2.1]
    · simp only [Except.ok.injEq, Prod.mk.injEq] at h
      rw [← h.2.1]

/-- Claim C5: with no source-control metadata directory at the project
root, `version()` returns exactly the caller-supplied released version,
unchanged. -/
theorem c5_no_git_returns_released (w : Wheels) (world : World) (t : Nat)
    (hfresh : w.attr_dunder_version = none) (hgit : world.git_config_exists = false) :
    Wheels.version w world t = .ok (w.released_version, w, t + 1) := by
  simp [Wheels.version, hfresh, hgit]

theorem c5_no_git_returns_released_witness :
    witWheels.attr_dunder_version = none ∧ witWorldNoGit.git_config_exists = false ∧
      Wheels.version witWheels witWorldNoGit 0 = .ok ("0.1.0", witWheels, 1) :=
  ⟨rfl, rfl, c5_no_git_returns_released witWheels witWorldNoGit 0 rfl rfl⟩

/-- Claim C1: the memoization of `version()` is broken, because
`hasattr(self, "__version")` checks an attribute name that the mangled
assignment `self.__version = ...` never creates.  On the same fresh
instance, two consecutive `version()` calls recompute and — with the clock
one second apart — return different strings, contradicting the
compute-at-most-once/cached contract. -/
theorem c1_version_not_memoized :
    firstVersionCall.toOption.map (fun r => r.1) = some "1.2.4+None20240101000000" ∧
      secondVersionCall.toOption.map (fun r => r.1) = some "1.2.4+None20240101000001" ∧
      ("1.2.4+None20240101000000" : String) ≠ "1.2.4+None20240101000001" :=
  ⟨by decide, by decide, by decide⟩

/-- Claim C7: whenever the scope was entered (so exit runs), the temporary
directory no longer exists after scope exit, whether the body returned
normally or raised. -/
theorem c7_tmp_removed_after_scope (w : Wheels) (world : World) (t : Nat) (fs : FS)
    (body : Entered → Except String Unit) (en : Entered)
    (h : (Wheels.enter w world t fs).res = .ok en) :
    ((withWheels w world t fs body).2).tmp_exists = false ∧
      ((withWheels w world t fs body).2).tmp = [] := by
  simp only [withWheels]
  rw [h]
  simp [Wheels.exitScope]

theorem c7_tmp_removed_after_scope_witness :
    ((Wheels.enter witWheels witWorldNoGit 0 ⟨witProject, false, []⟩).res = .ok witEntered) ∧
      ((withWheels witWheels witWorldNoGit 0 ⟨witProject, false, []⟩
          (fun _ => .error "body raised")).2).tmp_exists = false ∧
      ((withWheels witWheels witWorldNoGit 0 ⟨witProject, false, []⟩
          (fun _ => .error "body raised")).2).tmp = [] :=
  ⟨by decide,
    c7_tmp_removed_after_scope witWheels witWorldNoGit 0 ⟨witProject, false, []⟩
      (fun _ => .error "body raised") witEntered (by decide)⟩

theorem build_wheel_events (w : Wheels) (world : World) (t : Nat) (fs : FS) (vb : Bool) :
    (Wheels.build_wheel w world t fs vb).events = [] ∨
      ∃ c, (Wheels.build_wheel w world t fs vb).events = [Event.pip_wheel_run (!vb) c] := by
  simp only [Wheels.build_wheel, runPip]
  split
  · exact Or.inl rfl
  · split
    · split
      · exact Or.inl rfl
      · split
        · exact Or.inr ⟨true, rfl⟩
        · split
          · exact Or.inr ⟨true, rfl⟩
          · exact Or.inr ⟨true, rfl⟩
    · split
      · exact Or.inr ⟨false, rfl⟩
      · split
        · exact Or.inr ⟨false, rfl⟩
        · exact Or.inr ⟨false, rfl⟩

theorem enter_events (w : Wheels) (world : World) (t : Nat) (fs : FS) :
    (Wheels.enter w world t fs).events =
      (Wheels.build_wheel w world t { fs with tmp_exists := true, tmp := [] } false).events := by
  simp only [Wheels.enter]
  split <;> rfl

/-- Claim C10: through the public lifecycle, the packaging tool is always
invoked with verbose off — every subprocess event `__enter__` emits is a
`pip wheel` run with output suppressed. -/
theorem c10_pip_runs_quiet (w : Wheels) (world : World) (t : Nat) (fs : FS) (ev : Event)
    (h : ev ∈ (Wheels.enter w world t fs).events) :
    ∃ c, ev = Event.pip_wheel_run true c := by
  rw [enter_events] at h
  rcases build_wheel_events w world t { fs with tmp_exists := true, tmp := [] } false
    with he | ⟨c, he⟩
  · rw [he] at h
    simp at h
  · rw [he] at h
    simp only [List.mem_singleton] at h
    exact ⟨c, h⟩

theorem c10_pip_runs_quiet_witness :
    (Event.pip_wheel_run true false
        ∈ (Wheels.enter witWheels witWorldNoGit 0 ⟨witProject, false, []⟩).events) ∧
      ∃ c, Event.pip_wheel_run true false = Event.pip_wheel_run true c :=
  ⟨by decide,
    c10_pip_runs_quiet witWheels witWorldNoGit 0 ⟨witProject, false, []⟩
      (Event.pip_wheel_run true false) (by decide)⟩

/-- The remediation message embeds the issue-tracker link, the
releases-page link, and the original error text. -/
theorem errorMessage_contains (w : Wheels) (e : String) :
    strContains (issues_url w) (errorMessage w e) ∧
      strContains (releases_url w) (errorMessage w e) ∧
      strContains e (errorMessage w e) := by
  refine ⟨⟨("Cannot determine unreleased version. Please report this error message that you see on " : String).data,
      ((". Meanwhile, download, unpack, and install the latest released version from " : String)
          ++ releases_url w ++ ". Original error is: " ++ e).data, ?_⟩,
    ⟨(("Cannot determine unreleased version. Please report this error message that you see on " : String)
          ++ issues_url w
          ++ ". Meanwhile, download, unpack, and install the latest released version from ").data,
      ((". Original error is: " : String) ++ e).data, ?_⟩,
    ⟨(("Cannot determine unreleased version. Please report this error message that you see on " : String)
          ++ issues_url w
          ++ ". Meanwhile, download, unpack, and install the latest released version from "
          ++ releases_url w ++ ". Original error is: ").data, [], ?_⟩⟩ <;>
    simp only [errorMessage, data_append, List.append_assoc, List.append_nil]

/-- Claim C6: whenever unreleased-version resolution fails, the raised
error's message is the remediation message for some underlying error text,
and it contains the issue-tracker link, the releases-page link, and that
original error text. -/
theorem c6_failure_message_remediation (w : Wheels) (world : World) (t : Nat) (m : String)
    (hfresh : w.attr_dunder_version = none)
    (herr : Wheels.version w world t = .error m) :
    ∃ e, m = errorMessage w e ∧ strContains (issues_url w) m ∧
      strContains (releases_url w) m ∧ strContains e m := by
  unfold Wheels.version at herr
  simp only [hfresh, Option.isSome_none, Bool.false_eq_true, if_false] at herr
  split at herr
  · split at herr
    · simp only [Except.error.injEq] at herr
      refine ⟨world.git_error t, herr.symm, ?_, ?_, ?_⟩ <;> rw [← herr]
      · exact (errorMessage_contains w (world.git_error t)).1
      · exact (errorMessage_contains w (world.git_error t)).2.1
      · exact (errorMessage_contains w (world.git_error t)).2.2
    · rename_i out hout
      split at herr
      · simp only [Except.error.injEq] at herr
        refine ⟨parseErrorText out, herr.symm, ?_, ?_, ?_⟩ <;> rw [← herr]
        · exact (errorMessage_contains w (parseErrorText out)).1
        · exact (errorMessage_contains w (parseErrorText out)).2.1
        · exact (errorMessage_contains w (parseErrorText out)).2.2
      · rename_i dv hdv
        split at herr
        · simp only [Except.error.injEq] at herr
          refine ⟨parseErrorText (composedOf dv (world.clock t)), herr.symm, ?_, ?_, ?_⟩ <;>
            rw [← herr]
          · exact (errorMessage_contains w (parseErrorText (composedOf dv (world.clock t)))).1
          · exact (errorMessage_contains w (parseErrorText (composedOf dv (world.clock t)))).2.1
          · exact (errorMessage_contains w (parseErrorText (composedOf dv (world.clock t)))).2.2
        · simp at herr
  · simp at herr

theorem c6_failure_message_remediation_witness :
    witWheels.attr_dunder_version = none ∧
      Wheels.version witWheels witWorldGitFails 0
        = .error (errorMessage witWheels "fatal: no names found, cannot describe anything.") ∧
      ∃ e, errorMessage witWheels "fatal: no names found, cannot describe anything."
            = errorMessage witWheels e ∧
          strContains (issues_url witWheels)
            (errorMessage witWheels "fatal: no names found, cannot describe anything.") ∧
          strContains (releases_url witWheels)
            (errorMessage witWheels "fatal: no names found, cannot describe anything.") ∧
          strContains e
            (errorMessage witWheels "fatal: no names found, cannot describe anything.") :=
  ⟨rfl, rfl,
    c6_failure_message_remediation witWheels witWorldGitFails 0
      (errorMessage witWheels "fatal: no names found, cannot describe anything.") rfl rfl⟩

/-- On a fresh instance, a successful `version()` call can be replayed at
any tick observing the same `git describe` output and clock reading: the
same string comes back (the broken cache is never consulted). -/
theorem version_again_ok (w : Wheels) (world : World) (t t₂ : Nat) (v : String)
    (w' : Wheels) (t' : Nat)
    (hfresh : w.attr_dunder_version = none)
    (hdesc : world.git_describe t₂ = world.git_describe t)
    (hclock : world.clock t₂ = world.clock t)
    (h : Wheels.version w world t = .ok (v, w', t')) :
    ∃ w'', Wheels.version w' world t₂ = .ok (v, w'', t₂ + 1) := by
  unfold Wheels.version at h
  simp only [hfresh, Option.isSome_none, Bool.false_eq_true, if_false] at h
  split at h
  · rename_i hgit
    split at h
    · simp at h
    · rename_i out hout
      split at h
      · simp at h
      · rename_i dv hdv
        split at h
        · simp at h
        · rename_i sv hsv
          simp only [Except.ok.injEq, Prod.mk.injEq] at h
          obtain ⟨hv, hw, _⟩ := h
          rw [hv] at hsv
          refine ⟨{ w' with attr_mangled_version := some v }, ?_⟩
          have hfresh2 : w'.attr_dunder_version = none := by
            rw [← hw]
          unfold Wheels.version
          simp only [hfresh2, Option.isSome_none, Bool.false_eq_true, if_false, hgit,
            if_true, hdesc, hclock, hout, hdv, hv, hsv]
  · rename_i hgit
    simp only [Except.ok.injEq, Prod.mk.injEq] at h
    obtain ⟨hv, hw, _⟩ := h
    refine ⟨w', ?_⟩
    unfold Wheels.version
    rw [← hw]
    simp only [hfresh, Option.isSome_none, Bool.false_eq_true, if_false, hgit, hv]

theorem globWhl_head_facts (tmp : List (String × String)) (g : String) (rest : List String)
    (hg : globWhl tmp = g :: rest) :
    (lookupA tmp g).isSome = true ∧ g.data.contains '/' = false := by
  have hmem : g ∈ globWhl tmp := by
    rw [hg]
    exact List.mem_cons_self _ _
  unfold globWhl at hmem
  have h2 := List.mem_filter.mp hmem
  have hpred := h2.2
  simp only [Bool.and_eq_true, Bool.not_eq_true'] at hpred
  exact ⟨lookupA_isSome_of_mem_keys tmp g h2.1, hpred.1⟩

theorem runPip_res_ok (w : Wheels) (world : World) (t : Nat) (fs : FS) (q c : Bool)
    (f : String) (h : (runPip w world t fs q c).res = .ok f) :
    (runPip w world t fs q c).fs.tmp_exists = fs.tmp_exists ∧
      (lookupA (runPip w world t fs q c).fs.tmp f).isSome = true ∧
      f.data.contains '/' = false := by
  cases hp : world.pip_files with
  | none => simp [runPip, hp] at h
  | some names =>
    cases hg : globWhl (fs.tmp ++ names.map (fun n => (n, "wheel-binary"))) with
    | nil => simp [runPip, hp, hg] at h
    | cons g rest =>
      simp only [runPip, hp, hg] at h ⊢
      simp only [Except.ok.injEq] at h
      subst h
      have facts := globWhl_head_facts _ g rest hg
      exact ⟨by simp, facts.1, facts.2⟩

theorem build_wheel_res_ok (w : Wheels) (world : World) (t : Nat) (fs : FS) (vb : Bool)
    (f : String) (h : (Wheels.build_wheel w world t fs vb).res = .ok f) :
    (Wheels.build_wheel w world t fs vb).fs.tmp_exists = fs.tmp_exists ∧
      (lookupA (Wheels.build_wheel w world t fs vb).fs.tmp f).isSome = true ∧
      f.data.contains '/' = false := by
  cases hv : Wheels.version w world t with
  | error e => simp [Wheels.build_wheel, hv] at h
  | ok r =>
    obtain ⟨v1, w1, t1⟩ := r
    cases hcond : world.git_config_exists && v1.data.contains '+' with
    | true =>
      cases hv2 : Wheels.version w1 world t1 with
      | error e2 =>
        simp only [Wheels.build_wheel, hv, hcond, hv2] at h
        exact Except.noConfusion h
      | ok r2 =>
        obtain ⟨v2, w2, t2⟩ := r2
        simp only [Wheels.build_wheel, hv, hcond, hv2] at h ⊢
        have hr := runPip_res_ok w2 world t2 _ (!vb) true f h
        simpa using hr
    | false =>
      simp only [Wheels.build_wheel, hv, hcond] at h ⊢
      exact runPip_res_ok w1 world t1 fs (!vb) false f h

theorem enter_res_ok (w : Wheels) (world : World) (t : Nat) (fs : FS) (en : Entered)
    (h : (Wheels.enter w world t fs).res = .ok en) :
    en.remote_wheel = w.install_folder ++ "/wheels/" ++ en.local_wheel ∧
      en.remote_dir_name = dirname en.remote_wheel ∧
      (Wheels.enter w world t fs).fs.tmp_exists = true ∧
      (lookupA (Wheels.enter w world t fs).fs.tmp en.local_wheel).isSome = true := by
  unfold Wheels.enter at h ⊢
  cases hb : (Wheels.build_wheel w world t { fs with tmp_exists := true, tmp := [] } false).res
    with
  | error e => simp [hb] at h
  | ok name =>
    simp only [hb] at h ⊢
    simp only [Except.ok.injEq] at h
    subst h
    have facts := build_wheel_res_ok w world t { fs with tmp_exists := true, tmp := [] }
      false name hb
    refine ⟨?_, rfl, ?_, ?_⟩
    · rw [basename_no_slash name facts.2.2]
    · simpa using facts.1
    · exact facts.2.1

theorem runPip_selection (w : Wheels) (world : World) (t : Nat) (fs : FS) (q c : Bool)
    (names : List String) (hpip : world.pip_files = some names) :
    ((runPip w world t fs q c).res = .error "StopIteration" ↔
        globWhl (runPip w world t fs q c).fs.tmp = []) ∧
    (∀ f rest, globWhl (runPip w world t fs q c).fs.tmp = f :: rest →
        (runPip w world t fs q c).res = .ok f) := by
  cases hg : globWhl (fs.tmp ++ names.map (fun n => (n, "wheel-binary"))) with
  | nil =>
    constructor
    · simp [runPip, hpip, hg]
    · intro f rest hf
      simp only [runPip, hpip, hg] at hf
      simp at hf
  | cons g rest0 =>
    constructor
    · simp [runPip, hpip, hg]
    · intro f rest hf
      simp only [runPip, hpip, hg] at hf ⊢
      have : g = f := (List.cons.injEq _ _ _ _ ▸ hf).1
      rw [this]

/-- Claim C9: once the packaging tool has exited successfully, the builder
fails with `StopIteration` exactly when no `*.whl` file is in the temp
directory, and otherwise — including when several match — returns the first
glob match without raising. -/
theorem c9_artifact_selection (w : Wheels) (world : World) (t : Nat) (fs : FS) (vb : Bool)
    (names : List String) (v1 : String) (w1 : Wheels) (t1 : Nat)
    (hfresh : w.attr_dunder_version = none)
    (hdesc : ∀ i j, world.git_describe i = world.git_describe j)
    (hclock : ∀ i j, world.clock i = world.clock j)
    (hpip : world.pip_files = some names)
    (hv : Wheels.version w world t = .ok (v1, w1, t1)) :
    ((Wheels.build_wheel w world t fs vb).res = .error "StopIteration" ↔
        globWhl (Wheels.build_wheel w world t fs vb).fs.tmp = []) ∧
    (∀ f rest, globWhl (Wheels.build_wheel w world t fs vb).fs.tmp = f :: rest →
        (Wheels.build_wheel w world t fs vb).res = .ok f) := by
  cases hcond : world.git_config_exists && v1.data.contains '+' with
  | true =>
    obtain ⟨w'', hv2⟩ := version_again_ok w world t t1 v1 w1 t1 hfresh
      (hdesc t1 t) (hclock t1 t) hv
    simp only [Wheels.build_wheel, hv, hcond, hv2]
    exact runPip_selection w'' world (t1 + 1) _ (!vb) true names hpip
  | false =>
    simp only [Wheels.build_wheel, hv, hcond]
    exact runPip_selection w1 world t1 fs (!vb) false names hpip

theorem c9_artifact_selection_witness :
    witWheels.attr_dunder_version = none ∧
      witWorldNoGit.pip_files = some ["databricks_labs_blueprint-0.1.0-py3-none-any.whl"] ∧
      Wheels.version witWheels witWorldNoGit 0 = .ok ("0.1.0", witWheels, 1) ∧
      (((Wheels.build_wheel witWheels witWorldNoGit 0 ⟨witProject, true, []⟩ false).res
            = .error "StopIteration" ↔
          globWhl (Wheels.build_wheel witWheels witWorldNoGit 0
              ⟨witProject, true, []⟩ false).fs.tmp = []) ∧
        (∀ f rest, globWhl (Wheels.build_wheel witWheels witWorldNoGit 0
              ⟨witProject, true, []⟩ false).fs.tmp = f :: rest →
          (Wheels.build_wheel witWheels witWorldNoGit 0 ⟨witProject, true, []⟩ false).res
            = .ok f)) :=
  ⟨rfl, rfl, by decide,
    c9_artifact_selection witWheels witWorldNoGit 0 ⟨witProject, true, []⟩ false
      ["databricks_labs_blueprint-0.1.0-py3-none-any.whl"] "0.1.0" witWheels 1
      rfl (fun _ _ => rfl) (fun _ _ => rfl) rfl (by decide)⟩

/-- Claim C8: after a successful scoped build, both upload operations
return `<install_folder>/wheels/<artifact name>` (the same string), each
creates the remote parent directory before uploading (the event trace is
exactly `mkdirs` then `upload` with overwrite), and each can be run twice
in a row, succeeding both times. -/
theorem c8_upload_paths (w : Wheels) (world : World) (t : Nat) (fs : FS) (en : Entered)
    (r : Remote) (h : (Wheels.enter w world t fs).res = .ok en) :
    (Wheels.upload_to_dbfs en (Wheels.enter w world t fs).fs r).res
        = .ok (w.install_folder ++ "/wheels/" ++ en.local_wheel) ∧
      (Wheels.upload_to_wsfs en (Wheels.enter w world t fs).fs r).res
        = .ok (w.install_folder ++ "/wheels/" ++ en.local_wheel) ∧
      (Wheels.upload_to_dbfs en (Wheels.enter w world t fs).fs r).events
        = [Event.dbfs_mkdirs en.remote_dir_name, Event.dbfs_upload en.remote_wheel true] ∧
      (Wheels.upload_to_wsfs en (Wheels.enter w world t fs).fs r).events
        = [Event.ws_mkdirs en.remote_dir_name, Event.ws_upload en.remote_wheel true] ∧
      (Wheels.upload_to_dbfs en (Wheels.enter w world t fs).fs
          (Wheels.upload_to_dbfs en (Wheels.enter w world t fs).fs r).remote).res
        = .ok en.remote_wheel ∧
      (Wheels.upload_to_wsfs en (Wheels.enter w world t fs).fs
          (Wheels.upload_to_wsfs en (Wheels.enter w world t fs).fs r).remote).res
        = .ok en.remote_wheel := by
  obtain ⟨hrw, hdir, hex, hlook⟩ := enter_res_ok w world t fs en h
  have hguard : ((Wheels.enter w world t fs).fs.tmp_exists &&
      (lookupA (Wheels.enter w world t fs).fs.tmp en.local_wheel).isSome) = true := by
    rw [hex, hlook]
    rfl
  refine ⟨?_, ?_, ?_, ?_, ?_, ?_⟩ <;>
    simp only [Wheels.upload_to_dbfs, Wheels.upload_to_wsfs, hguard, hrw]

theorem c8_upload_paths_witness :
    ((Wheels.enter witWheels witWorldNoGit 0 ⟨witProject, false, []⟩).res = .ok witEntered) ∧
      ((Wheels.upload_to_dbfs witEntered
            (Wheels.enter witWheels witWorldNoGit 0 ⟨witProject, false, []⟩).fs
            ⟨[], [], [], []⟩).res
          = .ok ("/Users/me/.blueprint" ++ "/wheels/"
              ++ "databricks_labs_blueprint-0.1.0-py3-none-any.whl") ∧
        (Wheels.upload_to_wsfs witEntered
            (Wheels.enter witWheels witWorldNoGit 0 ⟨witProject, false, []⟩).fs
            ⟨[], [], [], []⟩).res
          = .ok ("/Users/me/.blueprint" ++ "/wheels/"
              ++ "databricks_labs_blueprint-0.1.0-py3-none-any.whl") ∧
        (Wheels.upload_to_dbfs witEntered
            (Wheels.enter witWheels witWorldNoGit 0 ⟨witProject, false, []⟩).fs
            ⟨[], [], [], []⟩).events
          = [Event.dbfs_mkdirs witEntered.remote_dir_name,
              Event.dbfs_upload witEntered.remote_wheel true] ∧
        (Wheels.upload_to_wsfs witEntered
            (Wheels.enter witWheels witWorldNoGit 0 ⟨witProject, false, []⟩).fs
            ⟨[], [], [], []⟩).events
          = [Event.ws_mkdirs witEntered.remote_dir_name,
              Event.ws_upload witEntered.remote_wheel true] ∧
        (Wheels.upload_to_dbfs witEntered
            (Wheels.enter witWheels witWorldNoGit 0 ⟨witProject, false, []⟩).fs
            (Wheels.upload_to_dbfs witEntered
              (Wheels.enter witWheels witWorldNoGit 0 ⟨witProject, false, []⟩).fs
              ⟨[], [], [], []⟩).remote).res
          = .ok witEntered.remote_wheel ∧
        (Wheels.upload_to_wsfs witEntered
            (Wheels.enter witWheels witWorldNoGit 0 ⟨witProject, false, []⟩).fs
            (Wheels.upload_to_wsfs witEntered
              (Wheels.enter witWheels witWorldNoGit 0 ⟨witProject, false, []⟩).fs
              ⟨[], [], [], []⟩).remote).res
          = .ok witEntered.remote_wheel) :=
  ⟨by decide,
    c8_upload_paths witWheels witWorldNoGit 0 ⟨witProject, false, []⟩ witEntered
      ⟨[], [], [], []⟩ (by decide)⟩

theorem build_wheel_project_frame (w : Wheels) (world : World) (t : Nat) (fs : FS)
    (vb : Bool) : (Wheels.build_wheel w world t fs vb).fs.project = fs.project := by
  simp only [Wheels.build_wheel, runPip]
  split
  · rfl
  · split
    · split
      · rfl
      · split
        · rfl
        · split <;> rfl
    · split
      · rfl
      · split <;> rfl

/-- Claim C4: `_build_wheel` rewrites the working copy's marker file iff the
resolved version is unreleased (contains `+`) and the root is under git; in
that case the copy's marker contains exactly `__version__ = "<version>"`,
and in the other case the temp directory only ever receives the tool's own
outputs; the original project tree is unchanged on every path. -/
theorem c4_copy_and_marker (w : Wheels) (world : World) (t : Nat) (fs : FS) (vb : Bool)
    (v1 : String) (w1 : Wheels) (t1 : Nat)
    (hfresh : w.attr_dunder_version = none)
    (hdesc : ∀ i j, world.git_describe i = world.git_describe j)
    (hclock : ∀ i j, world.clock i = world.clock j)
    (hv : Wheels.version w world t = .ok (v1, w1, t1)) :
    (Wheels.build_wheel w world t fs vb).fs.project = fs.project ∧
    ((world.git_config_exists && v1.data.contains '+') = true →
        lookupA (Wheels.build_wheel w world t fs vb).fs.tmp (markerPath w.product)
          = some (markerContent v1)) ∧
    ((world.git_config_exists && v1.data.contains '+') = false →
        (Wheels.build_wheel w world t fs vb).fs.tmp = fs.tmp ++ pipEntries world) := by
  refine ⟨build_wheel_project_frame w world t fs vb, ?_, ?_⟩
  · intro hcond
    obtain ⟨w'', hv2⟩ := version_again_ok w world t t1 v1 w1 t1 hfresh
      (hdesc t1 t) (hclock t1 t) hv
    simp only [Wheels.build_wheel, hv, hcond, hv2]
    have base := lookupA_setA_self (fs.tmp ++ copyEntries fs.project) (markerPath w.product)
      (markerContent v1)
    cases hp : world.pip_files with
    | none => simp only [runPip, hp, base]
    | some ns =>
      simp only [runPip, hp]
      have appended := lookupA_append_left _ (ns.map (fun n => (n, "wheel-binary"))) _ _ base
      split <;> exact appended
  · intro hcond
    simp only [Wheels.build_wheel, hv, hcond]
    cases hp : world.pip_files with
    | none => simp [runPip, hp, pipEntries]
    | some ns =>
      simp only [runPip, hp, pipEntries]
      split <;> rfl

theorem c4_copy_and_marker_witness :
    witWheels.attr_dunder_version = none ∧
      Wheels.version witWheels witWorldStable 0
        = .ok ("1.2.4+None20240101000000",
            { witWheels with attr_mangled_version := some "1.2.4+None20240101000000" }, 1) ∧
      ((Wheels.build_wheel witWheels witWorldStable 0 ⟨witProject, true, []⟩ false).fs.project
          = witProject ∧
        ((witWorldStable.git_config_exists
              && ("1.2.4+None20240101000000" : String).data.contains '+') = true →
          lookupA (Wheels.build_wheel witWheels witWorldStable 0
                ⟨witProject, true, []⟩ false).fs.tmp (markerPath witWheels.product)
            = some (markerContent "1.2.4+None20240101000000")) ∧
        ((witWorldStable.git_config_exists
              && ("1.2.4+None20240101000000" : String).data.contains '+') = false →
          (Wheels.build_wheel witWheels witWorldStable 0 ⟨witProject, true, []⟩ false).fs.tmp
            = ([] : List (String × String)) ++ pipEntries witWorldStable)) :=
  ⟨rfl, by decide,
    c4_copy_and_marker witWheels witWorldStable 0 ⟨witProject, true, []⟩ false
      "1.2.4+None20240101000000"
      { witWheels with attr_mangled_version := some "1.2.4+None20240101000000" } 1
      rfl (fun _ _ => rfl) (fun _ _ => rfl) (by decide)⟩

theorem all_imp (p q : Char → Bool) (l : List Char) (h : l.all p = true)
    (himp : ∀ c, p c = true → q c = true) : l.all q = true := by
  simp only [List.all_eq_true] at h ⊢
  exact fun c hc => himp c (h c hc)

theorem natChars_beq_false (n : Nat) (x : Char) (hx : x.isDigit = false) :
    (natChars n).all (fun c => !(c == x)) = true :=
  all_imp _ _ _ (natChars_digits n)
    (fun c hc => by rw [digit_beq_false c x hc hx]; rfl)

/-- Parsing the composed string `1.2.4+None<digits>` succeeds with build
metadata `None<digits>`. -/
theorem parse_composed_none (ds : List Char) (h1 : ds.all Char.isDigit = true)
    (h2 : ds ≠ []) :
    SemVer.parse (String.mk
        ('1' :: '.' :: '2' :: '.' :: '4' :: '+' :: 'N' :: 'o' :: 'n' :: 'e' :: ds))
      = some ⟨1, 2, 4, none, some (String.mk ('N' :: 'o' :: 'n' :: 'e' :: ds))⟩ := by
  have hlast : ('1' :: '.' :: '2' :: '.' :: '4' :: '+' :: 'N' :: 'o' :: 'n' :: 'e'
      :: ds).getLast? = ds.getLast? :=
    List.getLast?_append_of_ne_nil ['1', '.', '2', '.', '4', '+', 'N', 'o', 'n', 'e'] h2
  have hlastval : ds.getLast? = some (ds.getLast h2) :=
    List.getLast?_eq_getLast_of_ne_nil h2
  have hlastdigit : (ds.getLast h2).isDigit = true :=
    List.all_eq_true.mp h1 _ (List.getLast_mem h2)
  have hdrop : dropFinalNewline
      ('1' :: '.' :: '2' :: '.' :: '4' :: '+' :: 'N' :: 'o' :: 'n' :: 'e' :: ds)
      = '1' :: '.' :: '2' :: '.' :: '4' :: '+' :: 'N' :: 'o' :: 'n' :: 'e' :: ds := by
    unfold dropFinalNewline
    rw [hlast, hlastval]
    simp only [digit_beq_false (ds.getLast h2) '\n' hlastdigit (by decide),
      Bool.false_eq_true, if_false]
  have hdsident : ds.all identChar = true :=
    all_imp _ _ _ h1 (fun c hc => by simp [identChar, digit_isAlphanum c hc])
  have hbuild : buildOK ('N' :: 'o' :: 'n' :: 'e' :: ds) = true := by
    have hnodot : ('N' :: 'o' :: 'n' :: 'e' :: ds).all (fun c => !(dotChar c)) = true := by
      refine List.all_eq_true.mpr ?_
      intro c hc
      simp only [List.mem_cons] at hc
      rcases hc with rfl | rfl | rfl | rfl | hc
      · decide
      · decide
      · decide
      · decide
      · have hcd := List.all_eq_true.mp h1 c hc
        simp only [dotChar, digit_beq_false c '.' hcd (by decide)]
        rfl
    rw [buildOK, splitP_not dotChar _ hnodot]
    have hident : ('N' :: 'o' :: 'n' :: 'e' :: ds).all identChar = true := by
      refine List.all_eq_true.mpr ?_
      intro c hc
      simp only [List.mem_cons] at hc
      rcases hc with rfl | rfl | rfl | rfl | hc
      · decide
      · decide
      · decide
      · decide
      · exact List.all_eq_true.mp hdsident c hc
    simp [buildIdentOK, hident]
  have key : semverParseChars ('1' :: '.' :: '2' :: '.' :: '4' :: '+'
      :: 'N' :: 'o' :: 'n' :: 'e' :: ds)
      = some ⟨1, 2, 4, none, some (String.mk ('N' :: 'o' :: 'n' :: 'e' :: ds))⟩ := by
    have hplus : splitFirst (fun c => c == '+')
        ('1' :: '.' :: '2' :: '.' :: '4' :: '+' :: 'N' :: 'o' :: 'n' :: 'e' :: ds)
        = (['1', '.', '2', '.', '4'], some ('N' :: 'o' :: 'n' :: 'e' :: ds)) :=
      splitFirst_app (fun c => c == '+') ['1', '.', '2', '.', '4'] '+'
        ('N' :: 'o' :: 'n' :: 'e' :: ds) (by decide) (by decide)
    unfold semverParseChars
    rw [hplus]
    simp [optPreOK, optBuildOK, hbuild, splitFirst, splitP, dotChar, numericOK, toNatDigits]
  unfold SemVer.parse
  rw [data_mk, hdrop]
  unfold stripV
  simp only [show (('1' : Char) == 'v') = false from rfl, Bool.false_eq_true, if_false]
  exact key

/-- Counterexample to claim C2 as stated: at exact tag `v1.2.3` the
returned string is `1.2.4+None20240101000000`, which does not match
`1.2.4+<14-digit-timestamp>` — the absent commits marker renders as the
literal text `None`, not as the empty string. -/
theorem c2_counterexample_literal_none :
    (Wheels.version witWheels witWorldStable 0).toOption.map (fun r => r.1)
        = some "1.2.4+None20240101000000" ∧
      matchesExactTagPattern "1.2.4+None20240101000000" = false :=
  ⟨by decide, by decide⟩

/-- Claim C2 (amended): for an exact tag `v1.2.3` match, `version()`
returns `1.2.4+None<timestamp>` — the absent commits-since-tag marker
contributes the literal f-string rendering `None` between `+` and the
timestamp. -/
theorem c2_exact_tag_literal_none (w : Wheels) (world : World) (t : Nat)
    (hfresh : w.attr_dunder_version = none)
    (hgit : world.git_config_exists = true)
    (hdesc : world.git_describe t = some "v1.2.3\n")
    (hds : (world.clock t).data.all Char.isDigit = true)
    (hdsne : (world.clock t).data ≠ []) :
    Wheels.version w world t
      = .ok (String.mk ('1' :: '.' :: '2' :: '.' :: '4' :: '+' :: 'N' :: 'o' :: 'n' :: 'e'
            :: (world.clock t).data),
          { w with attr_mangled_version := some (String.mk
              ('1' :: '.' :: '2' :: '.' :: '4' :: '+' :: 'N' :: 'o' :: 'n' :: 'e'
                :: (world.clock t).data)) }, t + 1) := by
  have htag : SemVer.parse "v1.2.3\n" = some ⟨1, 2, 3, none, none⟩ := by decide
  have hcomp0 : composedOf ⟨1, 2, 3, none, none⟩ (world.clock t)
      = String.mk ('1' :: '.' :: '2' :: '.' :: '4' :: '+' :: 'N' :: 'o' :: 'n' :: 'e'
          :: (world.clock t).data) := rfl
  have hparse := parse_composed_none (world.clock t).data hds hdsne
  unfold Wheels.version
  simp only [hfresh, Option.isSome_none, Bool.false_eq_true, if_false, hgit, if_true,
    hdesc, htag, hcomp0, hparse]

theorem c2_exact_tag_literal_none_witness :
    witWheels.attr_dunder_version = none ∧
      witWorldStable.git_config_exists = true ∧
      witWorldStable.git_describe 0 = some "v1.2.3\n" ∧
      (witWorldStable.clock 0).data.all Char.isDigit = true ∧
      (witWorldStable.clock 0).data ≠ [] ∧
      Wheels.version witWheels witWorldStable 0
        = .ok (String.mk ('1' :: '.' :: '2' :: '.' :: '4' :: '+' :: 'N' :: 'o' :: 'n' :: 'e'
              :: (witWorldStable.clock 0).data),
            { witWheels with attr_mangled_version := some (String.mk
                ('1' :: '.' :: '2' :: '.' :: '4' :: '+' :: 'N' :: 'o' :: 'n' :: 'e'
                  :: (witWorldStable.clock 0).data)) }, 1) :=
  ⟨rfl, rfl, rfl, by decide, by decide,
    c2_exact_tag_literal_none witWheels witWorldStable 0 rfl rfl rfl (by decide) (by decide)⟩

theorem isEmpty_false_of_ne (l : List Char) (h : l ≠ []) : l.isEmpty = false := by
  cases l with
  | nil => exact absurd rfl h
  | cons a b => rfl

theorem alnum_beq_false (c x : Char) (h : c.isAlphanum = true) (hx : x.isAlphanum = false) :
    (c == x) = false := by
  cases hbe : c == x with
  | false => rfl
  | true =>
    have hcx : c = x := eq_of_beq hbe
    rw [hcx] at h
    simp [h] at hx

theorem identOK_parts (x : List Char) (h : identOK x = true) :
    x ≠ [] ∧ x.all identChar = true := by
  unfold identOK at h
  simp only [Bool.and_eq_true] at h
  refine ⟨?_, h.1.2⟩
  cases x with
  | nil => simp at h
  | cons a b => exact List.cons_ne_nil a b

theorem preOK_to_Pw (l : List Char) (h : preOK l = true) :
    ∀ s ss, splitP dotChar l = s :: ss →
      s.all identChar = true ∧ ∀ x ∈ ss, x ≠ [] ∧ x.all identChar = true := by
  intro s ss hss
  unfold preOK at h
  rw [hss] at h
  simp only [List.all_cons, Bool.and_eq_true] at h
  refine ⟨(identOK_parts s h.1).2, ?_⟩
  intro x hx
  have hx2 : identOK x = true := by
    have h2 := h.2
    rw [List.all_eq_true] at h2
    exact h2 x hx
  exact identOK_parts x hx2

theorem preOK_head_ne_dot (l : List Char) (h : preOK l = true) : l.head? ≠ some '.' := by
  intro habs
  cases l with
  | nil => simp at habs
  | cons c t =>
    simp only [List.head?_cons, Option.some.injEq] at habs
    subst habs
    have hsplit : splitP dotChar ('.' :: t) = [] :: splitP dotChar t := by
      simp [splitP, dotChar]
    unfold preOK at h
    rw [hsplit] at h
    simp only [List.all_cons, Bool.and_eq_true] at h
    exact absurd h.1 (by decide)

/-- A successful parse guarantees the recorded pre-release field is a valid
dot-separated identifier sequence. -/
theorem semverParseChars_pre (l : List Char) (dv : SemVer) (pr : String)
    (h : semverParseChars l = some dv) (hpre : dv.pre_release = some pr) :
    preOK pr.data = true := by
  unfold semverParseChars at h
  split at h
  · rename_i a b c heq
    split at h
    · rename_i hguard
      simp only [Option.some.injEq] at h
      rw [← h] at hpre
      simp only at hpre
      cases hq : (splitFirst (fun c => c == '-') (splitFirst (fun c => c == '+') l).1).2 with
      | none =>
        rw [hq] at hpre
        simp at hpre
      | some p =>
        rw [hq] at hpre
        simp only [Option.map_some', Option.some.injEq] at hpre
        rw [hq] at hguard
        simp only [Bool.and_eq_true] at hguard
        have hpOK : preOK p = true := hguard.1.2
        rw [← hpre, data_mk]
        exact hpOK
    · exact absurd h (by simp)
  · exact absurd h (by simp)

theorem parse_pre (g : String) (dv : SemVer) (pr : String)
    (h : SemVer.parse g = some dv) (hpre : dv.pre_release = some pr) :
    preOK pr.data = true :=
  semverParseChars_pre _ dv pr h hpre

/-- Appending a nonempty run of alphanumeric non-dot characters to the
prefix of a valid pre-release field cut at its first hyphen yields dot
segments that are nonempty (except possibly a leading one when the field
starts with a dot, which a valid field never does) and alphanumeric. -/
theorem splitP_takeNoDash_good (l : List Char) :
    (∀ s ss, splitP dotChar l = s :: ss →
      s.all identChar = true ∧ ∀ x ∈ ss, x ≠ [] ∧ x.all identChar = true) →
    ∀ ds, ds ≠ [] → ds.all Char.isAlphanum = true →
      ds.all (fun c => !(dotChar c)) = true →
    ∃ s ss, splitP dotChar (l.takeWhile (fun c => !(c == '-')) ++ ds) = s :: ss ∧
      s.all Char.isAlphanum = true ∧
      (∀ x ∈ ss, x ≠ [] ∧ x.all Char.isAlphanum = true) ∧
      (l.head? ≠ some '.' → s ≠ []) := by
  induction l with
  | nil =>
    intro _ ds hne hall hnd
    refine ⟨ds, [], ?_, hall, by simp, fun _ => hne⟩
    simpa using splitP_not dotChar ds hnd
  | cons c t ih =>
    intro hP ds hne hall hnd
    by_cases hdash : c = '-'
    · subst hdash
      rw [@List.takeWhile_cons_of_neg Char (fun x => !(x == '-')) '-' t (by decide)]
      refine ⟨ds, [], ?_, hall, by simp, fun _ => hne⟩
      simpa using splitP_not dotChar ds hnd
    · obtain ⟨s0, ss0, hs0⟩ : ∃ s0 ss0, splitP dotChar t = s0 :: ss0 := by
        cases hh : splitP dotChar t with
        | nil => exact absurd hh (splitP_ne_nil dotChar t)
        | cons a b => exact ⟨a, b, rfl⟩
      by_cases hdot : c = '.'
      · subst hdot
        have hsplit_cons : splitP dotChar ('.' :: t) = [] :: splitP dotChar t := by
          simp [splitP, dotChar]
        have hP0 := hP [] (splitP dotChar t) (by rw [hsplit_cons])
        have hPt : ∀ s ss, splitP dotChar t = s :: ss →
            s.all identChar = true ∧ ∀ x ∈ ss, x ≠ [] ∧ x.all identChar = true := by
          intro s ss hss
          have hsmem : s ∈ splitP dotChar t := by
            rw [hss]
            exact List.mem_cons_self _ _
          refine ⟨(hP0.2 s hsmem).2, ?_⟩
          intro x hx
          exact hP0.2 x (by rw [hss]; exact List.mem_cons_of_mem _ hx)
        obtain ⟨s', ss', hsplit', hs'alnum, hss', hhead'⟩ := ih hPt ds hne hall hnd
        have hthead : t.head? ≠ some '.' := by
          intro habs
          cases t with
          | nil => simp at habs
          | cons c2 t2 =>
            simp only [List.head?_cons, Option.some.injEq] at habs
            subst habs
            have h22 : splitP dotChar ('.' :: t2) = [] :: splitP dotChar t2 := by
              simp [splitP, dotChar]
            have h23 := hP0.2 [] (by rw [h22]; exact List.mem_cons_self _ _)
            exact h23.1 rfl
        have hs'ne : s' ≠ [] := hhead' hthead
        rw [@List.takeWhile_cons_of_pos Char (fun x => !(x == '-')) '.' t (by decide)]
        refine ⟨[], s' :: ss', ?_, by simp, ?_, ?_⟩
        · have hshape : ('.' :: t.takeWhile (fun x => !(x == '-'))) ++ ds
              = '.' :: (t.takeWhile (fun x => !(x == '-')) ++ ds) := by simp
          rw [hshape]
          have hred : splitP dotChar ('.' :: (t.takeWhile (fun x => !(x == '-')) ++ ds))
              = [] :: splitP dotChar (t.takeWhile (fun x => !(x == '-')) ++ ds) := by
            simp [splitP, dotChar]
          rw [hred, hsplit']
        · intro x hx
          rcases List.mem_cons.mp hx with rfl | hx2
          · exact ⟨hs'ne, hs'alnum⟩
          · exact hss' x hx2
        · intro hh
          exact absurd rfl hh
      · have hdotb : dotChar c = false := by
          cases hb : c == '.' with
          | false => simpa [dotChar] using hb
          | true => exact absurd (eq_of_beq hb) hdot
        have hsplit_c : splitP dotChar (c :: t) = (c :: s0) :: ss0 :=
          splitP_cons_of_head dotChar c t hdotb s0 ss0 hs0
        have hPc := hP (c :: s0) ss0 hsplit_c
        have hcident : identChar c = true := by
          have h1 := hPc.1
          simp only [List.all_cons, Bool.and_eq_true] at h1
          exact h1.1
        have hcal : c.isAlphanum = true := by
          simp only [identChar, Bool.or_eq_true] at hcident
          rcases hcident with h1 | h1
          · exact h1
          · exact absurd (eq_of_beq h1) hdash
        have hs0ident : s0.all identChar = true := by
          have h1 := hPc.1
          simp only [List.all_cons, Bool.and_eq_true] at h1
          exact h1.2
        have hPt : ∀ s ss, splitP dotChar t = s :: ss →
            s.all identChar = true ∧ ∀ x ∈ ss, x ≠ [] ∧ x.all identChar = true := by
          intro s ss hss
          rw [hs0] at hss
          have hinj := List.cons.injEq s0 ss0 s ss ▸ hss
          obtain ⟨h1, h2⟩ := hinj
          subst h1
          subst h2
          exact ⟨hs0ident, hPc.2⟩
        obtain ⟨s', ss', hsplit', hs'alnum, hss', hhead'⟩ := ih hPt ds hne hall hnd
        have hpredc : (!(c == '-')) = true := by
          cases hb : c == '-' with
          | false => rfl
          | true => exact absurd (eq_of_beq hb) hdash
        rw [@List.takeWhile_cons_of_pos Char (fun x => !(x == '-')) c t hpredc]
        refine ⟨c :: s', ss', ?_, ?_, hss', ?_⟩
        · have hcons : (c :: t.takeWhile (fun x => !(x == '-'))) ++ ds
              = c :: (t.takeWhile (fun x => !(x == '-')) ++ ds) := by simp
          rw [hcons]
          exact splitP_cons_of_head dotChar c _ hdotb s' ss' hsplit'
        · simp only [List.all_cons, Bool.and_eq_true]
          exact ⟨hcal, hs'alnum⟩
        · intro _
          exact List.cons_ne_nil c s'

/-- The composed `major.minor.(patch+1)+<marker><digits>` string always
satisfies the packaging-ecosystem validity check, for any parsed tag whose
pre-release field (when present) is semver-valid. -/
theorem pep440_composedOf (dv : SemVer) (ds : String)
    (hds : ds.data.all Char.isDigit = true) (hdsne : ds.data ≠ [])
    (hpre : ∀ pr, dv.pre_release = some pr → preOK pr.data = true) :
    pep440OK (composedOf dv ds) = true := by
  have hdsal : ds.data.all Char.isAlphanum = true :=
    all_imp _ _ _ hds (fun c hc => digit_isAlphanum c hc)
  have hdsnd : ds.data.all (fun c => !(dotChar c)) = true :=
    all_imp _ _ _ hds (fun c hc => by
      simp only [dotChar, digit_beq_false c '.' hc (by decide)]
      rfl)
  have hAall : (natChars dv.major ++ '.' :: (natChars dv.minor ++ '.'
      :: natChars (dv.patch + 1))).all (fun c => !(c == '+')) = true := by
    simp only [List.all_append, List.all_cons, Bool.and_eq_true]
    exact ⟨natChars_beq_false dv.major '+' (by decide), by decide,
      natChars_beq_false dv.minor '+' (by decide), by decide,
      natChars_beq_false (dv.patch + 1) '+' (by decide)⟩
  have hsf := splitFirst_app (fun c => c == '+')
      (natChars dv.major ++ '.' :: (natChars dv.minor ++ '.' :: natChars (dv.patch + 1)))
      '+' ((pyStrOpt (ncOf dv)).data ++ ds.data) hAall (by decide)
  simp only [List.append_assoc, List.cons_append] at hsf
  have h1 : splitP dotChar (natChars (dv.patch + 1)) = [natChars (dv.patch + 1)] :=
    splitP_not dotChar _ (natChars_beq_false (dv.patch + 1) '.' (by decide))
  have h2 : splitP dotChar (natChars dv.minor ++ '.' :: natChars (dv.patch + 1))
      = natChars dv.minor :: [natChars (dv.patch + 1)] := by
    rw [splitP_app dotChar _ '.' _ (natChars_beq_false dv.minor '.' (by decide)) (by decide),
      h1]
  have h3 : splitP dotChar (natChars dv.major ++ '.' :: (natChars dv.minor ++ '.'
      :: natChars (dv.patch + 1)))
      = natChars dv.major :: natChars dv.minor :: [natChars (dv.patch + 1)] := by
    rw [splitP_app dotChar _ '.' _ (natChars_beq_false dv.major '.' (by decide)) (by decide),
      h2]
  have hXne : (pyStrOpt (ncOf dv)).data ++ ds.data ≠ [] := by
    intro habs
    exact hdsne (List.append_eq_nil.mp habs).2
  unfold pep440OK composedOf composedChars
  rw [data_mk]
  simp only [List.append_assoc, List.cons_append]
  rw [hsf]
  simp only [Bool.and_eq_true]
  constructor
  · rw [h3]
    simp only [List.all_cons, List.all_nil, Bool.and_true, digitsSeg, Bool.and_eq_true]
    exact ⟨⟨by rw [isEmpty_false_of_ne _ (natChars_ne_nil dv.major)]; rfl,
        natChars_digits dv.major⟩,
      ⟨by rw [isEmpty_false_of_ne _ (natChars_ne_nil dv.minor)]; rfl,
        natChars_digits dv.minor⟩,
      ⟨by rw [isEmpty_false_of_ne _ (natChars_ne_nil (dv.patch + 1))]; rfl,
        natChars_digits (dv.patch + 1)⟩⟩
  · refine ⟨by simp [isEmpty_false_of_ne _ hXne], ?_⟩
    cases hT : pyTruthy dv.pre_release with
    | false =>
      have hnc : ncOf dv = none := by simp [ncOf, hT]
      rw [hnc]
      have hXall : (pyStrOpt none).data ++ ds.data
          = 'N' :: 'o' :: 'n' :: 'e' :: ds.data := rfl
      rw [hXall]
      have hnosep : ('N' :: 'o' :: 'n' :: 'e' :: ds.data).all
          (fun c => !(sepChar c)) = true := by
        refine List.all_eq_true.mpr ?_
        intro c hc
        simp only [List.mem_cons] at hc
        rcases hc with rfl | rfl | rfl | rfl | hc
        · decide
        · decide
        · decide
        · decide
        · have hcd := List.all_eq_true.mp hds c hc
          simp only [sepChar, digit_beq_false c '.' hcd (by decide),
            digit_beq_false c '-' hcd (by decide), digit_beq_false c '_' hcd (by decide)]
          rfl
      rw [splitP_not sepChar _ hnosep]
      simp only [List.all_cons, List.all_nil, Bool.and_true, alnumSeg]
      have hXal : ('N' :: 'o' :: 'n' :: 'e' :: ds.data).all Char.isAlphanum = true := by
        refine List.all_eq_true.mpr ?_
        intro c hc
        simp only [List.mem_cons] at hc
        rcases hc with rfl | rfl | rfl | rfl | hc
        · decide
        · decide
        · decide
        · decide
        · exact List.all_eq_true.mp hdsal c hc
      rw [show ('N' :: 'o' :: 'n' :: 'e' :: ds.data).isEmpty = false from rfl]
      simp only [Bool.not_false, Bool.true_and]
      exact hXal
    | true =>
      cases hpr : dv.pre_release with
      | none =>
        rw [hpr] at hT
        simp [pyTruthy] at hT
      | some pr =>
        have hpreOK := hpre pr hpr
        have hT2 : pyTruthy (some pr) = true := by
          rw [← hpr]
          exact hT
        have hnc : ncOf dv = some (String.mk (takeNoDash pr)) := by
          simp [ncOf, hpr, hT2]
        rw [hnc]
        have hXdata : (pyStrOpt (some (String.mk (takeNoDash pr)))).data ++ ds.data
            = takeNoDash pr ++ ds.data := rfl
        rw [hXdata]
        have hchars : ∀ c ∈ (takeNoDash pr ++ ds.data), sepChar c = dotChar c := by
          intro c hc
          rcases List.mem_append.mp hc with hc1 | hc2
          · have hmem := mem_takeWhile (fun x => !(x == '-')) pr.data c hc1
            have hcin : c ∈ pr.data := hmem.1
            have hcnd : (!(c == '-')) = true := hmem.2
            rcases mem_splitP_of_mem dotChar pr.data c hcin with hdotc | ⟨s, hs, hcs⟩
            · have hcdot : c = '.' := eq_of_beq hdotc
              subst hcdot
              rfl
            · obtain ⟨s0, ss0, hs0⟩ : ∃ s0 ss0, splitP dotChar pr.data = s0 :: ss0 := by
                cases hh : splitP dotChar pr.data with
                | nil => exact absurd hh (splitP_ne_nil dotChar pr.data)
                | cons a b => exact ⟨a, b, rfl⟩
              have hparts := preOK_to_Pw pr.data hpreOK s0 ss0 hs0
              have hident : identChar c = true := by
                rw [hs0] at hs
                rcases List.mem_cons.mp hs with rfl | hmem2
                · exact List.all_eq_true.mp hparts.1 c hcs
                · exact List.all_eq_true.mp (hparts.2 s hmem2).2 c hcs
              have hal : c.isAlphanum = true := by
                simp only [identChar, Bool.or_eq_true] at hident
                rcases hident with h1 | h1
                · exact h1
                · rw [h1] at hcnd
                  simp at hcnd
              rw [show sepChar c = false from by
                  simp only [sepChar, alnum_beq_false c '.' hal (by decide),
                    alnum_beq_false c '-' hal (by decide),
                    alnum_beq_false c '_' hal (by decide)]
                  rfl,
                show dotChar c = false from by
                  simp only [dotChar, alnum_beq_false c '.' hal (by decide)]]
          · have hcd := List.all_eq_true.mp hds c hc2
            rw [show sepChar c = false from by
                simp only [sepChar, digit_beq_false c '.' hcd (by decide),
                  digit_beq_false c '-' hcd (by decide),
                  digit_beq_false c '_' hcd (by decide)]
                rfl,
              show dotChar c = false from by
                simp only [dotChar, digit_beq_false c '.' hcd (by decide)]]
        rw [splitP_congr sepChar dotChar _ hchars]
        obtain ⟨s, ss, hsplit, hsal, hssal, hhead⟩ :=
          splitP_takeNoDash_good pr.data (preOK_to_Pw pr.data hpreOK) ds.data hdsne
            hdsal hdsnd
        have hred : takeNoDash pr ++ ds.data
            = pr.data.takeWhile (fun x => !(x == '-')) ++ ds.data := rfl
        rw [hred, hsplit]
        have hsne : s ≠ [] := hhead (preOK_head_ne_dot pr.data hpreOK)
        simp only [List.all_cons, Bool.and_eq_true]
        refine ⟨?_, ?_⟩
        · simp [alnumSeg, isEmpty_false_of_ne s hsne, hsal]
        · rw [List.all_eq_true]
          intro x hx
          have hfacts := hssal x hx
          simp [alnumSeg, isEmpty_false_of_ne x hfacts.1, hfacts.2]

/-- Claim C3: every computed (source-control-derived) version string that
`version()` returns parses as a semantic version and as a
packaging-ecosystem version; any string failing the in-code semver
re-validation is never returned (the error path raises instead). -/
theorem c3_computed_version_dual_valid (w : Wheels) (world : World) (t : Nat)
    (v : String) (w' : Wheels) (t' : Nat)
    (hfresh : w.attr_dunder_version = none)
    (hgit : world.git_config_exists = true)
    (hds : (world.clock t).data.all Char.isDigit = true)
    (hdsne : (world.clock t).data ≠ [])
    (hv : Wheels.version w world t = .ok (v, w', t')) :
    (SemVer.parse v).isSome = true ∧ pep440OK v = true := by
  unfold Wheels.version at hv
  simp only [hfresh, Option.isSome_none, Bool.false_eq_true, if_false, hgit, if_true] at hv
  split at hv
  · simp at hv
  · rename_i out hout
    split at hv
    · simp at hv
    · rename_i dv hdv
      split at hv
      · simp at hv
      · rename_i sv hsv
        simp only [Except.ok.injEq, Prod.mk.injEq] at hv
        obtain ⟨hveq, _, _⟩ := hv
        subst hveq
        constructor
        · rw [hsv]
          rfl
        · refine pep440_composedOf dv (world.clock t) hds hdsne ?_
          intro pr hpr
          exact parse_pre out dv pr hdv hpr

theorem c3_computed_version_dual_valid_witness :
    witWheels.attr_dunder_version = none ∧
      witWorldStable.git_config_exists = true ∧
      (witWorldStable.clock 0).data.all Char.isDigit = true ∧
      (witWorldStable.clock 0).data ≠ [] ∧
      Wheels.version witWheels witWorldStable 0
        = .ok ("1.2.4+None20240101000000",
            { witWheels with attr_mangled_version := some "1.2.4+None20240101000000" }, 1) ∧
      ((SemVer.parse "1.2.4+None20240101000000").isSome = true ∧
        pep440OK "1.2.4+None20240101000000" = true) :=
  ⟨rfl, rfl, by decide, by decide, by decide,
    c3_computed_version_dual_valid witWheels witWorldStable 0
      "1.2.4+None20240101000000"
      { witWheels with attr_mangled_version := some "1.2.4+None20240101000000" } 1
      rfl rfl (by decide) (by decide) (by decide)⟩

end Blueprint
